import Mathlib

/-!
# AudioViz: a shallow embedding of the visualizer core

Definitions translate, function by function, the Python sources of the
AudioViz repository: the adaptive normalizer and EMA smoother of
`src/render/pygame_render.py`, the particle pool, the terrain history
buffers, the waveform renderer, the file and live audio sources, and the
DSP pipeline.  Numeric values are modelled as rationals (reals/complexes
for the FFT stage); numpy arrays as lists; a raised exception as `none`
in an `Option` result.
-/

namespace AudioViz

/-- A magnitude spectrum: one list of bins per channel
(a numpy array of shape `(channels, bins)`). -/
abbrev Spectrum := List (List ℚ)

/-- `np.max` over a flattened array.  `none` models the `ValueError`
numpy raises on a zero-size array. -/
def npMax (xs : List ℚ) : Option ℚ :=
  match xs with
  | [] => none
  | x :: rest => some (List.foldl max x rest)

/-- Decay factor for the running max (`self.max_decay = 0.995`). -/
def maxDecay : ℚ := 995 / 1000

/-- Normalization state of `PyGameRenderer`: the manual scale override
(`self.scale_multiplier`, `none` meaning automatic) and the adaptive
running maximum (`self.running_max`, initialised to `1.0`). -/
structure NormState where
  scaleMultiplier : Option ℚ
  runningMax : ℚ
deriving DecidableEq

/-- The initial normalization state set in `PyGameRenderer.__init__`:
automatic mode, `running_max = 1.0`. -/
def initNormState : NormState := ⟨none, 1⟩

/-- `PyGameRenderer._normalize_spectrum`: with a manual scale set, multiply
through; otherwise update the running max (fast attack, decayed release
clamped below by `current_max * 0.5` and the floor `1.0`) and divide.
A `none` result models the exception `np.max` raises on an empty array. -/
def normalizeSpectrum (st : NormState) (spectrum : Spectrum) :
    Option (Spectrum × NormState) :=
  match st.scaleMultiplier with
  | some k => some (spectrum.map (fun row => row.map (fun v => v * k)), st)
  | none =>
    match npMax spectrum.flatten with
    | none => none
    | some currentMax =>
      let rm :=
        if currentMax > st.runningMax then currentMax
        else max (st.runningMax * maxDecay) (max (currentMax * (1 / 2)) 1)
      let out :=
        if rm > 0 then spectrum.map (fun row => row.map (fun v => v / rm))
        else spectrum
      some (out, { st with runningMax := rm })

/-- Run the `_normalize_spectrum` state update over a sequence of frames;
`none` if any frame raises. -/
def normalizeSeq (st : NormState) : List Spectrum → Option NormState
  | [] => some st
  | sp :: rest =>
    match normalizeSpectrum st sp with
    | none => none
    | some res => normalizeSeq res.2 rest

theorem normalizeSpectrum_auto_step (r m : ℚ) (sp : Spectrum) (res : Spectrum × NormState)
    (hm : npMax sp.flatten = some m)
    (h : normalizeSpectrum ⟨none, r⟩ sp = some res) (hr : 1 ≤ r) :
    res.2.scaleMultiplier = none ∧ 1 ≤ res.2.runningMax ∧ m * (1 / 2) ≤ res.2.runningMax := by
  unfold normalizeSpectrum at h
  simp only [hm] at h
  by_cases hc : m > r
  · simp only [hc, if_pos] at h
    cases h
    refine ⟨rfl, ?_, ?_⟩
    · exact le_of_lt (lt_of_le_of_lt hr hc)
    · have hm1 : (1:ℚ) ≤ m := le_of_lt (lt_of_le_of_lt hr hc)
      nlinarith
  · simp only [hc, if_false] at h
    cases h
    refine ⟨rfl, ?_, ?_⟩
    · exact le_trans (le_max_right _ _) (le_max_right _ _)
    · exact le_trans (le_max_left _ _) (le_max_right _ _)

theorem normalizeSeq_auto_invariant (specs : List Spectrum) :
    ∀ (r : ℚ) (st : NormState), 1 ≤ r →
      normalizeSeq ⟨none, r⟩ specs = some st →
      st.scaleMultiplier = none ∧ 1 ≤ st.runningMax := by
  induction specs with
  | nil =>
    intro r st hr h
    simp only [normalizeSeq, Option.some_inj] at h
    cases h
    exact ⟨rfl, hr⟩
  | cons sp rest ih =>
    intro r st hr h
    cases hstep : normalizeSpectrum ⟨none, r⟩ sp with
    | none => simp only [normalizeSeq, hstep] at h; exact Option.noConfusion h
    | some res =>
      simp only [normalizeSeq, hstep] at h
      cases hmx : npMax sp.flatten with
      | none => simp [normalizeSpectrum, hmx] at hstep
      | some m =>
        obtain ⟨hsc, hrm, _⟩ := normalizeSpectrum_auto_step r m sp res hmx hstep hr
        have hres : res.2 = ⟨none, res.2.runningMax⟩ := by
          cases hmk : res.2 with
          | mk a b => rw [hmk] at hsc; simp at hsc; rw [hsc]
        rw [hres] at h
        exact ih res.2.runningMax st hrm h

theorem normalizeSeq_append (st : NormState) (l1 l2 : List Spectrum) :
    normalizeSeq st (l1 ++ l2) =
      (normalizeSeq st l1).bind (fun s => normalizeSeq s l2) := by
  induction l1 generalizing st with
  | nil => simp [normalizeSeq]
  | cons sp rest ih =>
    simp only [List.cons_append, normalizeSeq]
    cases normalizeSpectrum st sp with
    | none => simp
    | some res => simpa using ih res.2

/-- C1: starting from the initial `NormalizationState` (`running_max = 1.0`)
and staying in automatic mode, after `_normalize_spectrum` processes any
sequence of frames and then a spectrum of maximum magnitude `m`, the stored
running max is at least `m * 0.5` and at least the floor `1.0`. -/
theorem running_max_lower_bound (specs : List Spectrum) (sp : Spectrum) (m : ℚ)
    (st : NormState) (hm : npMax sp.flatten = some m)
    (h : normalizeSeq initNormState (specs ++ [sp]) = some st) :
    m * (1 / 2) ≤ st.runningMax ∧ 1 ≤ st.runningMax := by
  rw [normalizeSeq_append] at h
  cases hmid : normalizeSeq initNormState specs with
  | none => rw [hmid] at h; exact absurd h (by simp)
  | some mid =>
    rw [hmid, Option.some_bind] at h
    have hmidinv := normalizeSeq_auto_invariant specs 1 mid le_rfl hmid
    cases hstep : normalizeSpectrum mid sp with
    | none => simp only [normalizeSeq, hstep] at h; exact Option.noConfusion h
    | some res =>
      simp only [normalizeSeq, hstep, Option.some_inj] at h
      have hmid2 : mid = ⟨none, mid.runningMax⟩ := by
        cases hmk : mid with
        | mk a b => rw [hmk] at hmidinv; simp at hmidinv; rw [hmidinv.1]
      rw [hmid2] at hstep
      obtain ⟨_, h1, h2⟩ :=
        normalizeSpectrum_auto_step mid.runningMax m sp res hm hstep hmidinv.2
      rw [← h]
      exact ⟨h2, h1⟩

/-- Witness for C1 at a concrete run: one frame `[[2]]`, whose maximum is 2. -/
theorem running_max_lower_bound_witness :
    (2 : ℚ) * (1 / 2) ≤ (⟨none, 2⟩ : NormState).runningMax ∧
      (1 : ℚ) ≤ (⟨none, 2⟩ : NormState).runningMax :=
  running_max_lower_bound [] [[2]] 2 ⟨none, 2⟩ (by decide) (by decide)

/-! ## Temporal smoother (`PyGameRenderer._apply_smoothing`) -/

/-- EMA coefficient (`self.smoothing_factor = 0.7`). -/
def smoothingFactor : ℚ := 7 / 10

/-- The numpy shape of a spectrum: the list of per-channel bin counts. -/
def shape (sp : Spectrum) : List ℕ := sp.map List.length

/-- One EMA blend: `smoothing_factor * smoothed + (1 - smoothing_factor) * spectrum`,
elementwise over the array. -/
def emaStep (prev cur : Spectrum) : Spectrum :=
  List.zipWith
    (fun prow crow =>
      List.zipWith
        (fun p c => smoothingFactor * p + (1 - smoothingFactor) * c) prow crow)
    prev cur

/-- `PyGameRenderer._apply_smoothing`: reset to the raw spectrum when there is
no stored value or the shape changed, otherwise blend.  Returns the frame's
output together with the new `self.smoothed_spectrum`. -/
def applySmoothing (smoothed : Option Spectrum) (spectrum : Spectrum) :
    Spectrum × Option Spectrum :=
  match smoothed with
  | none => (spectrum, some spectrum)
  | some prev =>
    if shape prev ≠ shape spectrum then (spectrum, some spectrum)
    else
      let out := emaStep prev spectrum
      (out, some out)

theorem emaStep_shape (prev sp : Spectrum) (h : shape prev = shape sp) :
    shape (emaStep prev sp) = shape sp := by
  induction prev generalizing sp with
  | nil => cases sp with
    | nil => rfl
    | cons b t => simp [shape] at h
  | cons a ta ih =>
    cases sp with
    | nil => simp [shape] at h
    | cons b tb =>
      simp only [shape, List.map_cons, List.cons.injEq] at h
      simp only [emaStep, List.zipWith_cons_cons, shape, List.map_cons,
        List.cons.injEq]
      refine ⟨?_, ?_⟩
      · rw [List.length_zipWith, h.1, min_self]
      · have := ih tb (by simpa [shape] using h.2)
        simpa [emaStep, shape] using this

theorem emaStep_getD (prev sp : Spectrum) (hsh : shape prev = shape sp)
    (i j : ℕ) (hi : i < sp.length) (hj : j < (sp.getD i []).length) :
    ((emaStep prev sp).getD i []).getD j 0 =
      smoothingFactor * ((prev.getD i []).getD j 0) +
        (1 - smoothingFactor) * ((sp.getD i []).getD j 0) := by
  have hlen : prev.length = sp.length := by
    have := congrArg List.length hsh
    simpa [shape] using this
  have hip : i < prev.length := hlen ▸ hi
  have hrow : prev[i].length = sp[i].length := by
    have h2 : (shape prev)[i]? = (shape sp)[i]? := by rw [hsh]
    rw [List.getElem?_eq_getElem (by simpa [shape] using hip),
      List.getElem?_eq_getElem (by simpa [shape] using hi)] at h2
    simp only [Option.some_inj] at h2
    simpa [shape] using h2
  have hsrow : j < sp[i].length := by rwa [List.getD_eq_getElem sp [] hi] at hj
  have hjp : j < prev[i].length := by rw [hrow]; exact hsrow
  have hie : i < (emaStep prev sp).length := by
    simp only [emaStep, List.length_zipWith]
    omega
  rw [List.getD_eq_getElem (emaStep prev sp) [] hie,
    List.getD_eq_getElem prev [] hip, List.getD_eq_getElem sp [] hi]
  simp only [emaStep]
  rw [List.getElem_zipWith]
  have hjz : j <
      (List.zipWith
        (fun p c => smoothingFactor * p + (1 - smoothingFactor) * c)
        prev[i] sp[i]).length := by
    rw [List.length_zipWith, hrow, min_self]
    exact hsrow
  rw [List.getD_eq_getElem _ 0 hjz, List.getD_eq_getElem _ 0 hjp,
    List.getD_eq_getElem _ 0 hsrow]
  rw [List.getElem_zipWith]

theorem ema_between (p c : ℚ) :
    |smoothingFactor * p + (1 - smoothingFactor) * c - c| =
      smoothingFactor * |p - c| ∧
    min p c ≤ smoothingFactor * p + (1 - smoothingFactor) * c ∧
    smoothingFactor * p + (1 - smoothingFactor) * c ≤ max p c := by
  have hsf : smoothingFactor = 7 / 10 := rfl
  rw [hsf]
  refine ⟨?_, ?_, ?_⟩
  · have h : (7 / 10 : ℚ) * p + (1 - 7 / 10) * c - c = (7 / 10) * (p - c) := by
      ring
    rw [h, abs_mul, abs_of_nonneg (by norm_num : (0 : ℚ) ≤ 7 / 10)]
  · rcases le_total p c with h | h
    · rw [min_eq_left h]; nlinarith
    · rw [min_eq_right h]; nlinarith
  · rcases le_total p c with h | h
    · rw [max_eq_right h]; nlinarith
    · rw [max_eq_left h]; nlinarith

/-- C3: for a stored smoothed spectrum of the same shape as the input `sp`,
one application of `_apply_smoothing` blends (and stores the blend), keeps
the shape, and in every bin the new value moves toward `sp` by exactly the
factor `smoothing_factor = 0.7` without overshooting: it stays between the
previous value and `sp`. -/
theorem smoothing_contracts (prev sp : Spectrum) (hsh : shape prev = shape sp) :
    applySmoothing (some prev) sp = (emaStep prev sp, some (emaStep prev sp)) ∧
    shape (emaStep prev sp) = shape sp ∧
    ∀ i j, i < sp.length → j < (sp.getD i []).length →
      |((emaStep prev sp).getD i []).getD j 0 - (sp.getD i []).getD j 0| =
        smoothingFactor * |(prev.getD i []).getD j 0 - (sp.getD i []).getD j 0| ∧
      min ((prev.getD i []).getD j 0) ((sp.getD i []).getD j 0) ≤
        ((emaStep prev sp).getD i []).getD j 0 ∧
      ((emaStep prev sp).getD i []).getD j 0 ≤
        max ((prev.getD i []).getD j 0) ((sp.getD i []).getD j 0) := by
  refine ⟨by simp [applySmoothing, hsh], emaStep_shape prev sp hsh, ?_⟩
  intro i j hi hj
  rw [emaStep_getD prev sp hsh i j hi hj]
  exact ema_between _ _

/-- Witness for C3 at a concrete pair: stored `[[0], [2]]`, input `[[1], [0]]`. -/
theorem smoothing_contracts_witness :
    applySmoothing (some [[0], [2]]) [[1], [0]] =
      (emaStep [[0], [2]] [[1], [0]], some (emaStep [[0], [2]] [[1], [0]])) ∧
    shape (emaStep [[0], [2]] [[1], [0]]) = shape [[1], [0]] ∧
    ∀ i j, i < ([[1], [0]] : Spectrum).length →
      j < (([[1], [0]] : Spectrum).getD i []).length →
      |((emaStep [[0], [2]] [[1], [0]]).getD i []).getD j 0 -
          (([[1], [0]] : Spectrum).getD i []).getD j 0| =
        smoothingFactor * |(([[0], [2]] : Spectrum).getD i []).getD j 0 -
          (([[1], [0]] : Spectrum).getD i []).getD j 0| ∧
      min ((([[0], [2]] : Spectrum).getD i []).getD j 0)
          ((([[1], [0]] : Spectrum).getD i []).getD j 0) ≤
        ((emaStep [[0], [2]] [[1], [0]]).getD i []).getD j 0 ∧
      ((emaStep [[0], [2]] [[1], [0]]).getD i []).getD j 0 ≤
        max ((([[0], [2]] : Spectrum).getD i []).getD j 0)
          ((([[1], [0]] : Spectrum).getD i []).getD j 0) :=
  smoothing_contracts [[0], [2]] [[1], [0]] (by decide)

/-! ## `PyGameRenderer.render`: input guard, normalization, smoothing -/

/-- The rendering modes of `PyGameRenderer` (`self.mode` strings). -/
inductive Mode where
  | bars | line | spectrogram | wave | radial | radialCurves
  | phaseClock | particles | terrain
deriving DecidableEq

/-- The slice of `PyGameRenderer` state that `render` reads before
dispatching to a mode renderer. -/
structure RendererState where
  mode : Mode
  norm : NormState
  smoothed : Option Spectrum
deriving DecidableEq

/-- How a call to `render` ends:  `skip` is the early `return` (the frame is
skipped, nothing drawn); `frame` means the processed spectrum reached the
mode dispatch (mode rendering runs); `exc` is an uncaught exception. -/
inductive RenderResult where
  | skip (st : RendererState)
  | frame (sp : Spectrum) (st : RendererState)
  | exc
deriving DecidableEq

/-- `PyGameRenderer.render` up to the mode dispatch: skip when the spectrum
is `None` or `len(spectrum) == 0`; otherwise `_normalize_spectrum` (which can
raise `ValueError` from `np.max` on a zero-size array) then
`_apply_smoothing`, and hand the result to the current mode's renderer. -/
def renderFront (st : RendererState) (spectrum : Option Spectrum) : RenderResult :=
  match spectrum with
  | none => .skip st
  | some sp =>
    if sp.length = 0 then .skip st
    else
      match normalizeSpectrum st.norm sp with
      | none => .exc
      | some (sp1, norm1) =>
        let r := applySmoothing st.smoothed sp1
        .frame r.1 ⟨st.mode, norm1, r.2⟩

/-- The renderer state right after `PyGameRenderer.__init__`: mode `bars`,
automatic scaling with `running_max = 1.0`, no smoothed spectrum yet. -/
def initRendererState : RendererState := ⟨.bars, initNormState, none⟩

/-- Counterexample to C2: a malformed spectrum of two channels and zero bins
per channel passes the `len(spectrum) == 0` guard, and in the initial
(automatic-scale) state `np.max` raises inside `_normalize_spectrum`:
the frame is not skipped silently. -/
theorem render_zero_bins_raises :
    renderFront initRendererState (some [[], []]) = RenderResult.exc ∧
      ∀ st, renderFront initRendererState (some [[], []]) ≠ RenderResult.skip st := by
  refine ⟨rfl, ?_⟩
  intro st
  simp [renderFront, initRendererState, normalizeSpectrum, initNormState, npMax]

/-- C2 (amended): `render` skips the frame silently — no mode rendering, no
exception, state untouched — exactly for a `None` spectrum or one of length
zero (no channel rows); zero-bin channels are not covered by the guard. -/
theorem render_skips_empty (st : RendererState) :
    renderFront st none = RenderResult.skip st ∧
      renderFront st (some []) = RenderResult.skip st :=
  ⟨rfl, rfl⟩

/-! ## ParticleSystem (`pygame_render.ParticleSystem`) -/

/-- The fixed-capacity particle pool: parallel numpy arrays of length
`max_particles`, plus the running `particle_count`. -/
structure ParticleSystem where
  maxParticles : ℕ
  positions : List (ℚ × ℚ)
  velocities : List (ℚ × ℚ)
  sizes : List ℚ
  colors : List (ℕ × ℕ × ℕ)
  lifetimes : List ℚ
  ages : List ℚ
  active : List Bool
  particleCount : ℤ
deriving DecidableEq

/-- `ParticleSystem.__init__`: zero-filled arrays, all slots inactive. -/
def ParticleSystem.mkInit (maxParticles : ℕ) : ParticleSystem :=
  ⟨maxParticles,
   List.replicate maxParticles (0, 0),
   List.replicate maxParticles (0, 0),
   List.replicate maxParticles 0,
   List.replicate maxParticles (0, 0, 0),
   List.replicate maxParticles 0,
   List.replicate maxParticles 0,
   List.replicate maxParticles false,
   0⟩

/-- `np.where(~self.active)[0]` followed by taking element 0: the index of
the first inactive slot, `none` when every slot is active. -/
def firstInactive : List Bool → Option ℕ
  | [] => none
  | a :: rest => if a then (firstInactive rest).map (· + 1) else some 0

/-- `ParticleSystem.spawn`: drop the request when no slot is free, else fill
the first free slot and bump the counter. -/
def ParticleSystem.spawn (ps : ParticleSystem) (x y vx vy sz : ℚ)
    (color : ℕ × ℕ × ℕ) (lifetime : ℚ) : ParticleSystem :=
  match firstInactive ps.active with
  | none => ps
  | some idx =>
    { ps with
      positions := ps.positions.set idx (x, y)
      velocities := ps.velocities.set idx (vx, vy)
      sizes := ps.sizes.set idx sz
      colors := ps.colors.set idx color
      lifetimes := ps.lifetimes.set idx lifetime
      ages := ps.ages.set idx 0
      active := ps.active.set idx true
      particleCount := ps.particleCount + 1 }

/-- Drag applied to active particles each update (`*= 0.98`). -/
def dragFactor : ℚ := 98 / 100

/-- `ParticleSystem.update`: early exit on an empty pool; move, drag and age
the active particles; deactivate the ones whose age reached their lifetime
and subtract them from the counter. -/
def ParticleSystem.update (ps : ParticleSystem) (dt : ℚ) : ParticleSystem :=
  if ps.particleCount = 0 then ps
  else
    let ages := List.zipWith (fun a g => if a then g + dt else g) ps.active ps.ages
    let newlyDead :=
      List.zipWith (fun a gl => a && decide (gl.2 ≤ gl.1)) ps.active (ages.zip ps.lifetimes)
    { ps with
      positions :=
        List.zipWith
          (fun a pv => if a then (pv.1.1 + pv.2.1 * dt, pv.1.2 + pv.2.2 * dt) else pv.1)
          ps.active (ps.positions.zip ps.velocities)
      velocities :=
        List.zipWith (fun a v => if a then (v.1 * dragFactor, v.2 * dragFactor) else v)
          ps.active ps.velocities
      ages := ages
      active := List.zipWith (fun a d => if d then false else a) ps.active newlyDead
      particleCount := ps.particleCount - (newlyDead.count true : ℤ) }

theorem firstInactive_eq_none (l : List Bool) (h : ∀ a ∈ l, a = true) :
    firstInactive l = none := by
  induction l with
  | nil => rfl
  | cons a rest ih =>
    have ha : a = true := h a (List.mem_cons_self a rest)
    simp only [firstInactive, ha, if_true]
    rw [ih (fun b hb => h b (List.mem_cons_of_mem a hb))]
    rfl

theorem firstInactive_some (l : List Bool) (i : ℕ) (h : firstInactive l = some i) :
    ∃ hi : i < l.length, l.get ⟨i, hi⟩ = false := by
  induction l generalizing i with
  | nil => exact Option.noConfusion h
  | cons a rest ih =>
    by_cases ha : a = true
    · simp only [firstInactive, ha, if_true] at h
      cases hr : firstInactive rest with
      | none => rw [hr] at h; exact Option.noConfusion h
      | some j =>
        rw [hr] at h
        simp at h
        obtain ⟨hj, hjf⟩ := ih j hr
        refine ⟨by simp; omega, ?_⟩
        have : i = j + 1 := h.symm
        subst this
        simpa using hjf
    · simp only [Bool.not_eq_true] at ha
      simp only [firstInactive, ha, Bool.false_eq_true, if_false,
        Option.some_inj] at h
      subst h
      exact ⟨by simp, by simpa using ha⟩

/-- C4: when every slot of the pool is active (the active count equals
`max_particles` and the mask has its full length), `spawn` returns the pool
completely unchanged — every array and the counter — and raises nothing. -/
theorem spawn_full_pool_noop (ps : ParticleSystem) (x y vx vy sz : ℚ)
    (color : ℕ × ℕ × ℕ) (lifetime : ℚ)
    (hlen : ps.active.length = ps.maxParticles)
    (hfull : ps.active.count true = ps.maxParticles) :
    ps.spawn x y vx vy sz color lifetime = ps := by
  have hall : ∀ a ∈ ps.active, a = true := by
    intro a ha
    have := List.count_eq_length.mp (by rw [hfull, hlen])
    exact (this a ha).symm
  unfold ParticleSystem.spawn
  rw [firstInactive_eq_none ps.active hall]

/-- A concrete full pool of capacity 2. -/
def fullPool2 : ParticleSystem :=
  ⟨2, [(0, 0), (0, 0)], [(0, 0), (0, 0)], [0, 0], [(0, 0, 0), (0, 0, 0)],
   [0, 0], [0, 0], [true, true], 2⟩

/-- Witness for C4: spawning into the concrete full pool changes nothing. -/
theorem spawn_full_pool_noop_witness :
    fullPool2.spawn 1 2 3 4 5 (6, 7, 8) 9 = fullPool2 :=
  spawn_full_pool_noop fullPool2 1 2 3 4 5 (6, 7, 8) 9 (by decide) (by decide)

theorem count_set_true (l : List Bool) (i : ℕ) (hi : i < l.length)
    (hf : l.get ⟨i, hi⟩ = false) :
    (l.set i true).count true = l.count true + 1 := by
  have hgf : l[i] = false := by simpa [List.get_eq_getElem] using hf
  rw [List.count_set true true l i hi]
  simp [hgf]

theorem count_deactivate (a : List Bool) (gl : List (ℚ × ℚ))
    (hlen : a.length = gl.length) :
    (List.zipWith (fun x y => if y then false else x) a
        (List.zipWith (fun x q => x && decide (q.2 ≤ q.1)) a gl)).count true
      + (List.zipWith (fun x q => x && decide (q.2 ≤ q.1)) a gl).count true
      = a.count true := by
  induction a generalizing gl with
  | nil => simp
  | cons x xs ih =>
    cases gl with
    | nil => simp at hlen
    | cons q qs =>
      simp only [List.length_cons, Nat.succ_inj] at hlen
      have hrec := ih qs hlen
      simp only [List.zipWith_cons_cons, List.count_cons]
      set A := (List.zipWith (fun x y => if y then false else x) xs
        (List.zipWith (fun x q => x && decide (q.2 ≤ q.1)) xs qs)).count true with hA
      set B := (List.zipWith (fun x q => x && decide (q.2 ≤ q.1)) xs qs).count true
        with hB
      set C := xs.count true with hC
      by_cases hc : q.2 ≤ q.1 <;> cases x <;> simp [hc] <;> omega

/-- The pool states reachable from `ParticleSystem.__init__` by any sequence
of `spawn` and `update` calls. -/
inductive ParticleSystem.Reachable : ParticleSystem → Prop where
  | init (n : ℕ) : Reachable (ParticleSystem.mkInit n)
  | spawn {ps : ParticleSystem} (x y vx vy sz : ℚ) (color : ℕ × ℕ × ℕ)
      (lifetime : ℚ) : Reachable ps →
      Reachable (ps.spawn x y vx vy sz color lifetime)
  | update {ps : ParticleSystem} (dt : ℚ) : Reachable ps →
      Reachable (ps.update dt)

theorem reachable_inv (ps : ParticleSystem) (h : ps.Reachable) :
    ps.active.length = ps.maxParticles ∧ ps.ages.length = ps.maxParticles ∧
    ps.lifetimes.length = ps.maxParticles ∧
    ps.particleCount = (ps.active.count true : ℤ) := by
  induction h with
  | init n => simp [ParticleSystem.mkInit, List.count_replicate]
  | @spawn ps x y vx vy sz color lifetime hr ih =>
    obtain ⟨h1, h2, h3, h4⟩ := ih
    cases hfi : firstInactive ps.active with
    | none => simpa [ParticleSystem.spawn, hfi] using ⟨h1, h2, h3, h4⟩
    | some idx =>
      obtain ⟨hi, hf⟩ := firstInactive_some ps.active idx hfi
      simp only [ParticleSystem.spawn, hfi]
      refine ⟨by simp [h1], by simp [h2], by simp [h3], ?_⟩
      rw [count_set_true ps.active idx hi hf, h4]
      push_cast
      ring
  | @update ps dt hr ih =>
    obtain ⟨h1, h2, h3, h4⟩ := ih
    by_cases hz : ps.particleCount = 0
    · have hid : ps.update dt = ps := by simp [ParticleSystem.update, hz]
      rw [hid]
      exact ⟨h1, h2, h3, h4⟩
    · simp only [ParticleSystem.update, hz, if_false]
      have hages : (List.zipWith (fun a g => if a then g + dt else g)
          ps.active ps.ages).length = ps.maxParticles := by
        rw [List.length_zipWith, h1, h2, min_self]
      have hzl : ps.active.length =
          ((List.zipWith (fun a g => if a then g + dt else g) ps.active ps.ages).zip
            ps.lifetimes).length := by
        rw [List.length_zip, hages, h3, min_self, h1]
      have hcnt := count_deactivate ps.active
        ((List.zipWith (fun a g => if a then g + dt else g) ps.active ps.ages).zip
          ps.lifetimes) hzl
      refine ⟨?_, ?_, h3, ?_⟩
      · rw [List.length_zipWith, List.length_zipWith, h1, ← hzl, h1, min_self,
          min_self]
      · exact hages
      · rw [h4]
        omega

/-- C10: in every `ParticleSystem` state reachable from construction by
`spawn` and `update` calls, `particle_count` equals the number of `True`
entries of the active mask, which never exceeds `max_particles`. -/
theorem particle_count_matches_active (ps : ParticleSystem) (h : ps.Reachable) :
    ps.particleCount = (ps.active.count true : ℤ) ∧
      ps.active.count true ≤ ps.maxParticles := by
  obtain ⟨h1, _, _, h4⟩ := reachable_inv ps h
  exact ⟨h4, h1 ▸ List.count_le_length true ps.active⟩

/-- Witness for C10 at a concrete reachable state: one spawn after init. -/
theorem particle_count_matches_active_witness :
    ((ParticleSystem.mkInit 2).spawn 1 2 3 4 5 (6, 7, 8) 9).particleCount =
      ((((ParticleSystem.mkInit 2).spawn 1 2 3 4 5 (6, 7, 8) 9).active.count
        true : ℕ) : ℤ) ∧
      ((ParticleSystem.mkInit 2).spawn 1 2 3 4 5 (6, 7, 8) 9).active.count true ≤
        ((ParticleSystem.mkInit 2).spawn 1 2 3 4 5 (6, 7, 8) 9).maxParticles :=
  particle_count_matches_active _
    (ParticleSystem.Reachable.spawn 1 2 3 4 5 (6, 7, 8) 9
      (ParticleSystem.Reachable.init 2))

/-! ## Terrain history (`deque(maxlen=40)` buffers of `_render_spectral_terrain`) -/

/-- `deque(maxlen=40)` capacity from `PyGameRenderer.__init__`. -/
def terrainHistoryDepth : ℕ := 40

/-- `self.terrain_num_bins = 60`. -/
def terrainNumBins : ℕ := 60

/-- `deque.append` with a `maxlen`: append on the right, evicting from the
left whatever exceeds the capacity `K`. -/
def dequeAppend {α : Type} (K : ℕ) (q : List α) (x : α) : List α :=
  (q ++ [x]).drop ((q.length + 1) - K)

theorem dequeAppend_foldl {α : Type} (K : ℕ) (xs : List α) :
    ∀ q : List α, q.length ≤ K →
      xs.foldl (dequeAppend K) q = (q ++ xs).drop ((q.length + xs.length) - K) := by
  induction xs with
  | nil => intro q hq; simp [Nat.sub_eq_zero_of_le hq]
  | cons x rest ih =>
    intro q hq
    rw [List.foldl_cons]
    have hlen : (dequeAppend K q x).length = min (q.length + 1) K := by
      simp only [dequeAppend, List.length_drop, List.length_append,
        List.length_cons, List.length_nil]
      omega
    rw [ih (dequeAppend K q x) (by omega)]
    have hd0 : q.length + 1 - K - (q ++ [x]).length = 0 := by
      simp only [List.length_append, List.length_cons, List.length_nil]
      omega
    have hsplit2 : ((q ++ [x]) ++ rest).drop (q.length + 1 - K) =
        (q ++ [x]).drop (q.length + 1 - K) ++ rest := by
      rw [List.drop_append_eq_append_drop, hd0, List.drop_zero]
    rw [hlen]
    simp only [dequeAppend]
    rw [← hsplit2, List.drop_drop]
    rw [show q ++ x :: rest = (q ++ [x]) ++ rest by simp]
    congr 1
    simp only [List.length_cons]
    omega

/-- The per-frame history update of `_render_spectral_terrain`: append the
first `terrain_num_bins` bins of each channel to that channel's deque. -/
def terrainAppend (histL histR : List (List ℚ)) (sp : Spectrum) :
    List (List ℚ) × List (List ℚ) :=
  (dequeAppend terrainHistoryDepth histL ((sp.getD 0 []).take terrainNumBins),
   dequeAppend terrainHistoryDepth histR ((sp.getD 1 []).take terrainNumBins))

/-- Terrain history after a sequence of rendered frames, starting from the
empty deques of `__init__`. -/
def terrainSeq (specs : List Spectrum) : List (List ℚ) × List (List ℚ) :=
  specs.foldl (fun h sp => terrainAppend h.1 h.2 sp) ([], [])

theorem terrainSeq_components (specs : List Spectrum) :
    ∀ hL hR : List (List ℚ),
      specs.foldl (fun h sp => terrainAppend h.1 h.2 sp) (hL, hR) =
        (specs.foldl
          (fun q sp =>
            dequeAppend terrainHistoryDepth q ((sp.getD 0 []).take terrainNumBins)) hL,
         specs.foldl
          (fun q sp =>
            dequeAppend terrainHistoryDepth q ((sp.getD 1 []).take terrainNumBins)) hR) := by
  induction specs with
  | nil => intro hL hR; rfl
  | cons sp rest ih =>
    intro hL hR
    simp only [List.foldl_cons]
    exact ih _ _

/-- C5: after more than `K = 40` frames, each terrain history buffer has
length exactly `K` and holds exactly the `K` most recently appended
per-channel slices, in append order (the oldest evicted first). -/
theorem terrain_history_window (specs : List Spectrum)
    (h : terrainHistoryDepth < specs.length) :
    (terrainSeq specs).1.length = terrainHistoryDepth ∧
    (terrainSeq specs).2.length = terrainHistoryDepth ∧
    (terrainSeq specs).1 =
      (specs.map (fun sp => (sp.getD 0 []).take terrainNumBins)).drop
        (specs.length - terrainHistoryDepth) ∧
    (terrainSeq specs).2 =
      (specs.map (fun sp => (sp.getD 1 []).take terrainNumBins)).drop
        (specs.length - terrainHistoryDepth) := by
  have hc := terrainSeq_components specs [] []
  have hfold : ∀ g : Spectrum → List ℚ,
      specs.foldl (fun q sp => dequeAppend terrainHistoryDepth q (g sp)) [] =
        (specs.map g).drop (specs.length - terrainHistoryDepth) := by
    intro g
    rw [← List.foldl_map g (dequeAppend terrainHistoryDepth)]
    rw [dequeAppend_foldl terrainHistoryDepth (specs.map g) [] (by simp)]
    simp
  have h1 : (terrainSeq specs).1 =
      (specs.map (fun sp => (sp.getD 0 []).take terrainNumBins)).drop
        (specs.length - terrainHistoryDepth) := by
    rw [terrainSeq, hc]
    exact hfold _
  have h2 : (terrainSeq specs).2 =
      (specs.map (fun sp => (sp.getD 1 []).take terrainNumBins)).drop
        (specs.length - terrainHistoryDepth) := by
    rw [terrainSeq, hc]
    exact hfold _
  refine ⟨?_, ?_, h1, h2⟩
  · rw [h1, List.length_drop, List.length_map]; omega
  · rw [h2, List.length_drop, List.length_map]; omega

/-- 41 identical frames, one more than the terrain capacity. -/
def specs41 : List Spectrum := List.replicate 41 [[1], [2]]

/-- Witness for C5 at the 41-frame sequence. -/
theorem terrain_history_window_witness :
    (terrainSeq specs41).1.length = terrainHistoryDepth ∧
    (terrainSeq specs41).2.length = terrainHistoryDepth ∧
    (terrainSeq specs41).1 =
      (specs41.map (fun sp => (sp.getD 0 []).take terrainNumBins)).drop
        (specs41.length - terrainHistoryDepth) ∧
    (terrainSeq specs41).2 =
      (specs41.map (fun sp => (sp.getD 1 []).take terrainNumBins)).drop
        (specs41.length - terrainHistoryDepth) :=
  terrain_history_window specs41 (by decide)

/-! ## FileAudioSource (`src/audio/file_source.py`) -/

/-- `CHUNK_SIZE` from the default configuration. -/
def CHUNK_SIZE : ℕ := 1024

/-- A zero-filled stereo block of `n` frames (`np.zeros((n, 2))`). -/
def zeros2 (n : ℕ) : List (ℚ × ℚ) := List.replicate n (0, 0)

/-- The mutable state of `FileAudioSource`: the decoded stereo data
(`None` if never loaded), the read cursor, and the loop flag. -/
structure FileSourceState where
  data : Option (List (ℚ × ℚ))
  cursor : ℕ
  loop : Bool
deriving DecidableEq

/-- `FileAudioSource.read_chunk`: loop-wrap or zero-pad at the end of the
data, otherwise a straight slice; returns the chunk and the new state. -/
def readChunk (st : FileSourceState) : List (ℚ × ℚ) × FileSourceState :=
  match st.data with
  | none => (zeros2 CHUNK_SIZE, st)
  | some data =>
    let e := st.cursor + CHUNK_SIZE
    if e > data.length then
      if st.loop then
        let chunk := data.drop st.cursor
        let remaining := CHUNK_SIZE - chunk.length
        (chunk ++ data.take remaining, { st with cursor := remaining })
      else
        let chunk := data.drop st.cursor
        (chunk ++ zeros2 (CHUNK_SIZE - chunk.length),
         { st with cursor := data.length })
    else
      ((data.drop st.cursor).take (e - st.cursor), { st with cursor := e })

/-- C6 fails on the code: with a loaded file of a single frame and
`loop=True`, the very first `read_chunk` (cursor 0) returns a block of

2 frames, not `CHUNK_SIZE = 1024`: the loop-wrap concatenates the tail and
one prefix copy only, which cannot reach `CHUNK_SIZE` when the file is
shorter than a chunk. -/
theorem readChunk_short_file_wrong_length :
    ((readChunk ⟨some [(0, 0)], 0, true⟩).1).length = 2 ∧
      CHUNK_SIZE = 1024 := by decide

/-! ## LiveAudioSource (`src/audio/live_source.py`) -/

/-- The sample formats `LiveAudioSource` can open. -/
inductive Dtype where
  | float32 | int32
deriving DecidableEq

/-- The state of `LiveAudioSource` that `read_chunk` reads: whether a
stream is open, the negotiated dtype, and the channel count. -/
structure LiveSourceState where
  stream : Option Unit
  dtype : Dtype
  channels : ℕ
deriving DecidableEq

/-- The outcome of `self.stream.read(CHUNK_SIZE)`: a raised exception, or
a data block together with the overflow flag. -/
abbrev ReadOutcome := Except Unit (List (List ℚ) × Bool)

/-- `2147483648.0`, the int32 normalization divisor. -/
def int32Max : ℚ := 2147483648

/-- `LiveAudioSource.read_chunk`: zeros when no stream is open; the
`try/except` catches any read failure and returns zeros; an overflow is
only printed; int32 data is scaled to floats. -/
def liveReadChunk (st : LiveSourceState) (r : ReadOutcome) : List (List ℚ) :=
  match st.stream with
  | none => List.replicate CHUNK_SIZE (List.replicate st.channels 0)
  | some _ =>
    match r with
    | .error _ => List.replicate CHUNK_SIZE (List.replicate st.channels 0)
    | .ok (data, _overflowed) =>
      match st.dtype with
      | .int32 => data.map (fun row => row.map (fun v => v / int32Max))
      | .float32 => data

/-- C7: `read_chunk` is total (never propagates an exception): an absent
stream or a raising read yields the zero block of shape
`(CHUNK_SIZE, channels)`, and the overflow flag never changes the result
of a successful read. -/
theorem live_read_never_raises (st : LiveSourceState) (r : ReadOutcome) :
    (st.stream = none →
      liveReadChunk st r = List.replicate CHUNK_SIZE (List.replicate st.channels 0)) ∧
    (∀ e, r = Except.error e →
      liveReadChunk st r = List.replicate CHUNK_SIZE (List.replicate st.channels 0)) ∧
    (∀ data o1 o2,
      liveReadChunk st (Except.ok (data, o1)) = liveReadChunk st (Except.ok (data, o2))) := by
  refine ⟨?_, ?_, ?_⟩
  · intro h
    simp [liveReadChunk, h]
  · intro e he
    subst he
    cases hs : st.stream <;> simp [liveReadChunk, hs]
  · intro data o1 o2
    cases hs : st.stream <;> simp [liveReadChunk, hs]

/-- Witness for C7 at concrete states: a missing stream with a raising
read, and an overflowed versus clean successful read. -/
theorem live_read_never_raises_witness :
    liveReadChunk ⟨none, Dtype.float32, 2⟩ (Except.error ()) =
      List.replicate CHUNK_SIZE (List.replicate 2 0) ∧
    liveReadChunk ⟨some (), Dtype.float32, 2⟩ (Except.ok ([[1, 2]], true)) =
      liveReadChunk ⟨some (), Dtype.float32, 2⟩ (Except.ok ([[1, 2]], false)) :=
  ⟨(live_read_never_raises ⟨none, Dtype.float32, 2⟩ (Except.error ())).1 rfl,
   (live_read_never_raises ⟨some (), Dtype.float32, 2⟩
      (Except.ok ([[1, 2]], true))).2.2 [[1, 2]] true false⟩

/-! ## DSPPipeline (`src/dsp/pipeline.py`)

The FFT itself is a library call (`scipy.fft.rfft`); it is embedded as the
textbook DFT over `ℂ`, which has the library's shape and the magnitude
nonnegativity that the claims are about. -/

/-- `FFT_SIZE` from the default configuration. -/
def FFT_SIZE : ℕ := 2048

/-- Pad a short block with zero frames and take exactly `FFT_SIZE` frames
(`audio_chunk[:FFT_SIZE]` after zero-padding). -/
def prepare (block : List (ℝ × ℝ)) : List (ℝ × ℝ) :=
  let padded :=
    if block.length < FFT_SIZE
    then block ++ List.replicate (FFT_SIZE - block.length) (0, 0)
    else block
  padded.take FFT_SIZE

/-- `np.hanning(FFT_SIZE)` at index `n`. -/
noncomputable def hann (n : ℕ) : ℝ :=
  1 / 2 - 1 / 2 * Real.cos (2 * Real.pi * n / (FFT_SIZE - 1))

/-- One channel of the windowed data, as complex numbers. -/
noncomputable def windowedCol (data : List (ℝ × ℝ)) (f : (ℝ × ℝ) → ℝ) : List ℂ :=
  data.enum.map (fun p => ((f p.2 * hann p.1 : ℝ) : ℂ))

/-- Bin `k` of the length-`FFT_SIZE` DFT. -/
noncomputable def dftBin (xs : List ℂ) (k : ℕ) : ℂ :=
  ∑ n ∈ Finset.range FFT_SIZE,
    xs.getD n 0 * Complex.exp (-(2 * Real.pi * k * n / FFT_SIZE) * Complex.I)

/-- `scipy.fft.rfft` of one channel: the first `FFT_SIZE/2 + 1` DFT bins. -/
noncomputable def rfftRow (xs : List ℂ) : List ℂ :=
  (List.range (FFT_SIZE / 2 + 1)).map (fun k => dftBin xs k)

/-- `DSPPipeline.process`: pad/truncate, window, rfft each channel, return
magnitude and phase rows (with the mono-duplication fallback). -/
noncomputable def process (block : List (ℝ × ℝ)) :
    List (List ℝ) × List (List ℝ) :=
  let data := prepare block
  let fl := rfftRow (windowedCol data (fun f => f.1))
  let fr := rfftRow (windowedCol data (fun f => f.2))
  let spectrum := [fl.map Complex.abs, fr.map Complex.abs]
  let phase := [fl.map Complex.arg, fr.map Complex.arg]
  let spectrum2 := if spectrum.length = 1 then spectrum ++ spectrum else spectrum
  let phase2 := if phase.length = 1 then phase ++ phase else phase
  (spectrum2, phase2)

/-- C8: for every input block, `process` returns spectrum and phase shaped
`(2, FFT_SIZE/2 + 1) = (2, 1025)`, with every magnitude nonnegative, after
zero-padding short inputs and truncating long ones to the window. -/
theorem process_shapes (block : List (ℝ × ℝ)) :
    (process block).1.length = 2 ∧ (process block).2.length = 2 ∧
    (∀ row ∈ (process block).1, row.length = FFT_SIZE / 2 + 1) ∧
    (∀ row ∈ (process block).2, row.length = FFT_SIZE / 2 + 1) ∧
    (∀ row ∈ (process block).1, ∀ v ∈ row, 0 ≤ v) ∧
    prepare block =
      block.take FFT_SIZE ++ List.replicate (FFT_SIZE - block.length) (0, 0) ∧
    FFT_SIZE / 2 + 1 = 1025 := by
  have hrow : ∀ xs : List ℂ, (rfftRow xs).length = FFT_SIZE / 2 + 1 := by
    intro xs
    simp [rfftRow]
  have hp : process block =
      ([(rfftRow (windowedCol (prepare block) (fun f => f.1))).map Complex.abs,
        (rfftRow (windowedCol (prepare block) (fun f => f.2))).map Complex.abs],
       [(rfftRow (windowedCol (prepare block) (fun f => f.1))).map Complex.arg,
        (rfftRow (windowedCol (prepare block) (fun f => f.2))).map Complex.arg]) :=
    rfl
  refine ⟨by rw [hp]; rfl, by rw [hp]; rfl, ?_, ?_, ?_, ?_, rfl⟩
  · intro row hrw
    rw [hp] at hrw
    simp only [List.mem_cons, List.not_mem_nil, or_false] at hrw
    rcases hrw with h | h
    · rw [h]; simp [hrow]
    · rw [h]; simp [hrow]
  · intro row hrw
    rw [hp] at hrw
    simp only [List.mem_cons, List.not_mem_nil, or_false] at hrw
    rcases hrw with h | h
    · rw [h]; simp [hrow]
    · rw [h]; simp [hrow]
  · intro row hrw v hv
    rw [hp] at hrw
    simp only [List.mem_cons, List.not_mem_nil, or_false] at hrw
    rcases hrw with h | h
    · rw [h] at hv
      simp only [List.mem_map] at hv
      obtain ⟨z, _, rfl⟩ := hv
      exact Complex.abs.nonneg z
    · rw [h] at hv
      simp only [List.mem_map] at hv
      obtain ⟨z, _, rfl⟩ := hv
      exact Complex.abs.nonneg z
  · by_cases hl : block.length < FFT_SIZE
    · have htk : block.take FFT_SIZE = block :=
        List.take_of_length_le (le_of_lt hl)
      simp only [prepare, hl, if_true, htk]
      rw [List.take_of_length_le]
      simp only [List.length_append, List.length_replicate]
      omega
    · simp only [prepare, hl, if_false]
      have : FFT_SIZE - block.length = 0 := by omega
      rw [this]
      simp

/-! ## Waveform renderer (`PyGameRenderer._render_waveform`) -/

/-- Display width from the default configuration. -/
def WINDOW_WIDTH : ℕ := 800

/-- Display height from the default configuration. -/
def WINDOW_HEIGHT : ℕ := 480

/-- The rising-edge zero-crossing scan: first `i` in
`range(len(left) // 2)` with `left[i] < 0 and left[i+1] > 0`, else 0. -/
def triggerIdx (left : List ℚ) : ℕ :=
  match (List.range (left.length / 2)).find?
      (fun i => decide (left.getD i 0 < 0) && decide (0 < left.getD (i + 1) 0)) with
  | none => 0
  | some i => i

/-- numpy `astype(int)`: truncation toward zero. -/
def pyInt (q : ℚ) : ℤ := if 0 ≤ q then ⌊q⌋ else ⌈q⌉

/-- `np.linspace(a, b, n)` (with the `num=1` special case). -/
def linspace (a b : ℚ) (n : ℕ) : List ℚ :=
  if n = 1 then [a]
  else (List.range n).map (fun (i : ℕ) => a + (b - a) * (i : ℚ) / ((n : ℚ) - 1))

/-- `np.max(np.abs(block))` over an `(n, 2)` block: the row maxima of the
absolute values, maximized over rows; `none` models the `ValueError` on an
empty slice. -/
def absMax2 (l : List (ℚ × ℚ)) : Option ℚ :=
  npMax (l.map (fun f => max |f.1| |f.2|))

/-- What one `_render_waveform` call produces: the per-channel integer
polylines handed to `pygame.draw.lines`, and the updated
`self.waveform_max`. -/
structure WaveformResult where
  points : List (List (ℤ × ℤ))
  waveformMax : ℚ
deriving DecidableEq

/-- The two per-channel polylines: slice from the trigger, map samples to
screen coordinates (right channel shifted down by 2), cast to ints. -/
def mkPoints (chunk : List (ℚ × ℚ)) (trigger drawLen : ℕ) (scale : ℚ) :
    List (List (ℤ × ℤ)) :=
  (List.range 2).map (fun ch =>
    let data := ((chunk.drop trigger).take drawLen).map
      (fun f => if ch = 0 then f.1 else f.2)
    let xs := linspace 0 (WINDOW_WIDTH : ℚ) data.length
    let ys := data.map (fun v =>
      ((WINDOW_HEIGHT : ℚ) / 2 - v * scale) + (if ch = 1 then 2 else 0))
    List.zipWith (fun a b => (pyInt a, pyInt b)) xs ys)

/-- `PyGameRenderer._render_waveform`: trigger search, manual or adaptive
amplitude scaling (the adaptive branch updates `waveform_max` with the same
fast-attack/decayed-release rule, floor `0.01`), then the two polylines.
`none` models an uncaught exception (`np.max` over an empty slice). -/
def renderWaveform (waveformMax : ℚ) (scaleMultiplier : Option ℚ)
    (chunk : List (ℚ × ℚ)) : Option WaveformResult :=
  let trigger := triggerIdx (chunk.map Prod.fst)
  let drawLen := min (chunk.length - trigger) WINDOW_WIDTH
  match scaleMultiplier with
  | some k =>
    some ⟨mkPoints chunk trigger drawLen (((WINDOW_HEIGHT : ℚ) / 2) * (8 / 10) * k),
      waveformMax⟩
  | none =>
    match absMax2 ((chunk.drop trigger).take drawLen) with
    | none => none
    | some currentAmpMax =>
      let wm :=
        if currentAmpMax > waveformMax then currentAmpMax
        else max (waveformMax * maxDecay) (max (currentAmpMax * (1 / 2)) (1 / 100))
      some ⟨mkPoints chunk trigger drawLen
        (((WINDOW_HEIGHT : ℚ) / 2) * (8 / 10) / max wm (1 / 100)), wm⟩

theorem linspace_length (a b : ℚ) (n : ℕ) : (linspace a b n).length = n := by
  unfold linspace
  by_cases h : n = 1
  · rw [if_pos h]
    simp [h]
  · rw [if_neg h, List.length_map, List.length_range]

theorem triggerIdx_cases (left : List ℚ) :
    triggerIdx left = 0 ∨ triggerIdx left < left.length / 2 := by
  cases hf : (List.range (left.length / 2)).find?
      (fun i => decide (left.getD i 0 < 0) && decide (0 < left.getD (i + 1) 0)) with
  | none =>
    left
    unfold triggerIdx
    rw [hf]
  | some i =>
    right
    have hm := List.mem_of_find?_eq_some hf
    have hi : i < left.length / 2 := List.mem_range.mp hm
    unfold triggerIdx
    rw [hf]
    exact hi

theorem npMax_some_of_ne_nil (xs : List ℚ) (h : xs ≠ []) :
    ∃ m, npMax xs = some m := by
  cases xs with
  | nil => exact absurd rfl h
  | cons a t => exact ⟨_, rfl⟩

theorem mkPoints_length (chunk : List (ℚ × ℚ)) (t d : ℕ) (s : ℚ) :
    (mkPoints chunk t d s).length = 2 := by
  simp [mkPoints]

theorem mkPoints_rows (chunk : List (ℚ × ℚ)) (t d : ℕ) (s : ℚ)
    (pl : List (ℤ × ℤ)) (h : pl ∈ mkPoints chunk t d s) :
    pl.length = min d (chunk.length - t) := by
  simp only [mkPoints, List.mem_map, List.mem_range] at h
  obtain ⟨ch, hch, rfl⟩ := h
  simp [List.length_zipWith, linspace_length]

/-- C9: on any 1024-frame stereo block, `_render_waveform` completes — the
zero-crossing scan touches only in-bound indices and the adaptive scale
divisor is positive — and yields exactly two polylines of at least 2 points
each. -/
theorem waveform_renders_two_polylines (wm : ℚ) (sm : Option ℚ)
    (chunk : List (ℚ × ℚ)) (hlen : chunk.length = 1024) :
    ∃ res : WaveformResult, renderWaveform wm sm chunk = some res ∧
      res.points.length = 2 ∧ (∀ pl ∈ res.points, 2 ≤ pl.length) ∧
      (∀ i ∈ List.range (chunk.length / 2), i + 1 < chunk.length) ∧
      0 < max res.waveformMax (1 / 100 : ℚ) := by
  have hw : WINDOW_WIDTH = 800 := rfl
  have hbound : ∀ i ∈ List.range (chunk.length / 2), i + 1 < chunk.length := by
    intro i hi
    rw [List.mem_range] at hi
    omega
  have hml : (chunk.map Prod.fst).length = 1024 := by simp [hlen]
  have htb : triggerIdx (chunk.map Prod.fst) ≤ 511 := by
    rcases triggerIdx_cases (chunk.map Prod.fst) with h | h
    · omega
    · rw [hml] at h; omega
  have hrows : ∀ s : ℚ, ∀ pl ∈ mkPoints chunk (triggerIdx (chunk.map Prod.fst))
      (min (chunk.length - triggerIdx (chunk.map Prod.fst)) WINDOW_WIDTH) s,
      2 ≤ pl.length := by
    intro s pl hpl
    rw [mkPoints_rows chunk _ _ s pl hpl, hlen, hw]
    omega
  have hpos : ∀ q : ℚ, 0 < max q (1 / 100 : ℚ) :=
    fun q => lt_of_lt_of_le (by norm_num) (le_max_right q (1 / 100))
  cases sm with
  | some k =>
    exact ⟨_, rfl, mkPoints_length chunk _ _ _, hrows _, hbound, hpos wm⟩
  | none =>
    have hne : (chunk.drop (triggerIdx (chunk.map Prod.fst))).take
        (min (chunk.length - triggerIdx (chunk.map Prod.fst)) WINDOW_WIDTH) ≠ [] := by
      intro hnil
      have hl0 := congrArg List.length hnil
      rw [List.length_take, List.length_drop, List.length_nil] at hl0
      rw [hlen, hw] at hl0
      omega
    have hmapne : ((chunk.drop (triggerIdx (chunk.map Prod.fst))).take
        (min (chunk.length - triggerIdx (chunk.map Prod.fst)) WINDOW_WIDTH)).map
        (fun f => max |f.1| |f.2|) ≠ [] := by
      intro hmm
      exact hne (List.map_eq_nil_iff.mp hmm)
    obtain ⟨m, hm⟩ := npMax_some_of_ne_nil _ hmapne
    have habs : absMax2 ((chunk.drop (triggerIdx (chunk.map Prod.fst))).take
        (min (chunk.length - triggerIdx (chunk.map Prod.fst)) WINDOW_WIDTH)) =
        some m := hm
    refine ⟨⟨mkPoints chunk (triggerIdx (chunk.map Prod.fst))
        (min (chunk.length - triggerIdx (chunk.map Prod.fst)) WINDOW_WIDTH)
        (((WINDOW_HEIGHT : ℚ) / 2) * (8 / 10) /
          max (if m > wm then m
            else max (wm * maxDecay) (max (m * (1 / 2)) (1 / 100))) (1 / 100)),
      if m > wm then m
        else max (wm * maxDecay) (max (m * (1 / 2)) (1 / 100))⟩, ?_, ?_, ?_,
      hbound, ?_⟩
    · simp only [renderWaveform, habs]
    · exact mkPoints_length chunk _ _ _
    · exact hrows _
    · exact hpos _

/-- Witness for C9 at a concrete silent block of 1024 frames. -/
theorem waveform_renders_two_polylines_witness :
    ∃ res : WaveformResult,
      renderWaveform (1 / 10) none (List.replicate 1024 (0, 0)) = some res ∧
      res.points.length = 2 ∧ (∀ pl ∈ res.points, 2 ≤ pl.length) ∧
      (∀ i ∈ List.range ((List.replicate 1024 ((0 : ℚ), (0 : ℚ))).length / 2),
        i + 1 < (List.replicate 1024 ((0 : ℚ), (0 : ℚ))).length) ∧
      0 < max res.waveformMax (1 / 100 : ℚ) :=
  waveform_renders_two_polylines (1 / 10) none (List.replicate 1024 (0, 0))
    (by rw [List.length_replicate])

end AudioViz
